import Mathlib

/-!
Shallow embedding of `src/gui/browserv7/src/RBrowserData.cxx` (class
`RBrowserData`): path decomposition, the resolution cache with
longest-prefix lookup (`GetSubElement`), the child-listing loop, and the
sort/filter/paginate request processing (`ProcessBrowserRequest`).

External collaborators (`Browsable::RElement`, `RLevelIter`, `RItem`) are
modelled by a lazily-irrelevant concrete tree: an element is a `RElem` node
carrying the item data produced by `CreateItem` and an optional child list
(`none` models a non-container element, for which `GetChildsIter` returns
null).  `std::regex` construction and matching are abstracted by a
`compile : String → Option (String → Bool)` parameter (`none` models a
`std::regex_error` thrown by the constructor), and the `RItem::Compare`
comparator by a `cmp : String → ItemData → ItemData → Bool` parameter.
-/

set_option maxHeartbeats 1000000

/-- Fields of `Browsable::RItem` that the request-processing code reads:
`GetName()`, `IsFolder()`, `IsHidden()`. -/
structure ItemData where
  name : String
  folder : Bool
  hidden : Bool
  deriving DecidableEq, Repr

/-- An element of the browsed hierarchy: the item data its parent iterator
produces for it, and its children (`none` when the element is not a
container, i.e. `GetChildsIter` returns null). -/
inductive RElem where
  | mk (data : ItemData) (childs : Option (List RElem))

/-- Item data of a tree element (what `CreateItem` returns for it). -/
def RElem.data : RElem → ItemData
  | .mk d _ => d

/-- Children of a tree element, `none` for non-containers. -/
def RElem.childs : RElem → Option (List RElem)
  | .mk _ c => c

/-- The resolution cache: keys are path-component sequences, values resolved
elements, kept in ascending lexicographic key order (see `cacheInsert`). -/
abbrev Cache := List (List String × RElem)

/-- The fields of `RBrowserRequest` read by `ProcessBrowserRequest`. -/
structure Request where
  path : String
  sort : String
  reverse : Bool
  hidden : Bool
  regex : String
  first : Int
  number : Int
  deriving DecidableEq, Repr

/-- The fields of `RBrowserReply` written by `ProcessBrowserRequest`. -/
structure Reply where
  nodes : List ItemData
  first : Int
  nchilds : Int

/-- The mutable state of `RBrowserData` used by the embedded functions. -/
structure BrowserData where
  fTopElement : RElem
  fWorkingPath : List String
  fCache : Cache
  fLastAllChilds : Bool
  fLastSortedItems : List ItemData
  fLastSortMethod : String
  fLastSortReverse : Bool
  fLastItems : List ItemData
  fLastPath : List String
  fLastElement : Option RElem

/-- Result of one `ProcessBrowserRequest` call: `fail` models `return false`,
`thrown` models a propagated `std::regex_error`, `ok` models `return true`
with the reply filled in.  Each carries the state at that point. -/
inductive Outcome where
  | fail (st : BrowserData)
  | thrown (st : BrowserData)
  | ok (st : BrowserData) (reply : Reply)

/-- State carried by an outcome. -/
def Outcome.getState : Outcome → BrowserData
  | .fail st => st
  | .thrown st => st
  | .ok st _ => st

/-- Whether the call returned false. -/
def Outcome.isFail : Outcome → Bool
  | .fail _ => true
  | _ => false

/-- Whether the call ended in a propagated regex error. -/
def Outcome.isThrown : Outcome → Bool
  | .thrown _ => true
  | _ => false

/-- Whether the call returned true with a reply. -/
def Outcome.isOk : Outcome → Bool
  | .ok _ _ => true
  | _ => false

/-- The splitting loop of `RBrowserData::DecomposePath`: scan for `/`
separators, emit each non-empty segment (`current > previous` in the C++),
a trailing non-empty remainder is emitted after the loop.  The accumulator
holds the current segment's characters in reverse. -/
def splitSlash : List Char → List Char → List String
  | [], cur => if cur.isEmpty then [] else [String.mk cur.reverse]
  | c :: rest, cur =>
    if c = '/' then
      if cur.isEmpty then splitSlash rest []
      else String.mk cur.reverse :: splitSlash rest []
    else splitSlash rest (c :: cur)

/-- `RBrowserData::DecomposePath`: start from the working path when
`relative` is set, return that start unchanged on an empty string, else
append the non-empty `/`-separated segments (a leading `/` only produces an
empty first segment, which the C++ skips via `previous++`). -/
def DecomposePath (workingPath : List String) (strpath : String) (relative : Bool) : List String :=
  let arr := if relative then workingPath else []
  if strpath = "" then arr
  else arr ++ splitSlash strpath.data []

/-- Modelled from the spec: `Browsable::RElement::ComparePaths` is declared
outside `src/`; the spec defines the match length as the count of leading
components on which the two paths agree (compared component-wise from
index 0). -/
def ComparePaths : List String → List String → Nat
  | a :: as, b :: bs => if a = b then ComparePaths as bs + 1 else 0
  | _, _ => 0

/-- Lexicographic order on path-component sequences, the `std::map` key
order for `std::vector<std::string>` keys. -/
def pathLtB : List String → List String → Bool
  | [], [] => false
  | [], _ :: _ => true
  | _ :: _, [] => false
  | a :: as, b :: bs => if a < b then true else if b < a then false else pathLtB as bs

/-- Modelled from the spec: the container type of the `fCache` member is
declared in `RBrowserData.hxx`, which is not under `src/`; the cache is a
mapping from path-component sequences to elements (`std::map`), modelled as
an association list kept in ascending lexicographic key order, with
`fCache[subpath] = elem` as order-preserving insert-or-assign. -/
def cacheInsert : Cache → List String → RElem → Cache
  | [], k, v => [(k, v)]
  | e :: rest, k, v =>
    if pathLtB k e.1 then (k, v) :: e :: rest
    else if pathLtB e.1 k then e :: cacheInsert rest k v
    else (e.1, v) :: rest

/-- The cache scan of `RBrowserData::GetSubElement`: walk the entries and
keep the entry whose key has the strictly largest `ComparePaths` match with
`path`, starting from `pos = 0`, `elem = fTopElement`. -/
def cacheScan (cache : Cache) (path : List String) (pos : Nat) (elem : RElem) : Nat × RElem :=
  match cache with
  | [] => (pos, elem)
  | e :: rest =>
    if pos < ComparePaths path e.1 then cacheScan rest path (ComparePaths path e.1) e.2
    else cacheScan rest path pos elem

/-- The resolution loop of `RBrowserData::GetSubElement`: `done` is the
already-resolved prefix (`path.take pos`), `rest` the remaining components.
Each step asks the current element for its child iterator, positions it on
the next component by name (`iter->Find`), materialises the child, stores
it in the cache under the extended prefix, and continues. -/
def walkFrom (cache : Cache) (done : List String) (rest : List String) (elem : RElem) :
    Option RElem × Cache :=
  match rest with
  | [] => (some elem, cache)
  | name :: rest' =>
    match elem.childs with
    | none => (none, cache)
    | some cs =>
      match cs.find? (fun c => c.data.name == name) with
      | none => (none, cache)
      | some child => walkFrom (cacheInsert cache (done ++ [name]) child) (done ++ [name]) rest' child

/-- `RBrowserData::GetSubElement` over an explicit top element and cache:
return the top element for the empty path, otherwise resume from the best
cached prefix and walk the remaining components, filling the cache. -/
def GetSubElement (top : RElem) (cache : Cache) (path : List String) : Option RElem × Cache :=
  if path = [] then (some top, cache)
  else
    let pe := cacheScan cache path 0 top
    walkFrom cache (path.take pe.1) (path.drop pe.1) pe.2

/-- Reference resolution against an empty cache: follow the components from
the given element by exact-name child lookup. -/
def resolveFrom (t : RElem) : List String → Option RElem
  | [] => some t
  | name :: rest =>
    match t.childs with
    | none => none
    | some cs =>
      match cs.find? (fun c => c.data.name == name) with
      | none => none
      | some child => resolveFrom child rest

/-- `RBrowserData::ResetLastRequest`: clear the six last-request memo fields
(`fLastSortReverse` is not cleared by the C++). -/
def ResetLastRequest (st : BrowserData) : BrowserData :=
  { st with fLastAllChilds := false, fLastSortedItems := [], fLastSortMethod := "",
            fLastItems := [], fLastPath := [], fLastElement := none }

/-- `RBrowserData::SetWorkingPath`: store the path and reset the memo. -/
def SetWorkingPath (st : BrowserData) (path : List String) : BrowserData :=
  ResetLastRequest { st with fWorkingPath := path }

/-- `RBrowserData::SetWorkingDirectory`: decompose (not relative to the
working element) and store. -/
def SetWorkingDirectory (st : BrowserData) (strpath : String) : BrowserData :=
  SetWorkingPath st (DecomposePath st.fWorkingPath strpath false)

/-- `RBrowserData::SetTopElement`: store the element and set an empty
working directory. -/
def SetTopElement (st : BrowserData) (elem : RElem) : BrowserData :=
  SetWorkingDirectory { st with fTopElement := elem } ""

/-- The child-listing loop of `ProcessBrowserRequest`: emit one item per
child while `Next()` succeeds and the completeness flag is still set; after
emitting, `if (id++ > 10000)` clears the flag, so the item with counter
value 10001 is the last one emitted. -/
def buildDirectChilds : List RElem → Nat → List ItemData × Bool
  | [], _ => ([], true)
  | t :: rest, id =>
    if id > 10000 then ([t.data], false)
    else
      let pr := buildDirectChilds rest (id + 1)
      (t.data :: pr.1, pr.2)

/-- The `if (fLastItems.empty())` block of `ProcessBrowserRequest`: rebuild
the raw listing from the last element's child iterator (`none` models
`return false` when the iterator is unavailable), then discard the stale
sorted sequence and sort method. -/
def listStep (st : BrowserData) : Option BrowserData :=
  if st.fLastItems.isEmpty then
    match st.fLastElement with
    | none => none
    | some el =>
      match el.childs with
      | none => none
      | some cs =>
        let pr := buildDirectChilds cs 0
        some { st with fLastAllChilds := pr.2, fLastItems := pr.1,
                       fLastSortedItems := [], fLastSortMethod := "" }
  else some st

/-- Insert into a sorted run, part of the model of `std::sort`. -/
def insertSorted (le : ItemData → ItemData → Bool) (x : ItemData) : List ItemData → List ItemData
  | [] => [x]
  | y :: ys => if le x y then x :: y :: ys else y :: insertSorted le x ys

/-- Model of `std::sort` with the request comparator (an insertion sort; no
claim depends on the produced order, only on when the sort is applied). -/
def sortItems (le : ItemData → ItemData → Bool) : List ItemData → List ItemData
  | [] => []
  | x :: xs => insertSorted le x (sortItems le xs)

/-- The ordering steps of the sort block: empty sort key moves folders in
front of non-folders keeping each group's order; otherwise the items are
copied and sorted with the comparator unless the key is `"unsorted"`. -/
def orderItems (cmp : String → ItemData → ItemData → Bool) (sort : String)
    (items : List ItemData) : List ItemData :=
  if sort = "" then items.filter (fun it => it.folder) ++ items.filter (fun it => !it.folder)
  else if sort ≠ "unsorted" then sortItems (cmp sort) items
  else items

/-- The sorted-array block of `ProcessBrowserRequest`: rebuild the sorted
sequence when its size, the sort method, or the reverse flag changed;
`std::reverse` is applied after the ordering steps. -/
def sortStep (cmp : String → ItemData → ItemData → Bool) (st : BrowserData) (req : Request) :
    BrowserData :=
  if st.fLastSortedItems.length ≠ st.fLastItems.length ∨ st.fLastSortMethod ≠ req.sort ∨
      st.fLastSortReverse ≠ req.reverse then
    let base := orderItems cmp req.sort st.fLastItems
    { st with fLastSortedItems := if req.reverse then base.reverse else base,
              fLastSortMethod := req.sort, fLastSortReverse := req.reverse }
  else st

/-- The filter/pagination loop of `ProcessBrowserRequest`: skip hidden items
unless requested, skip non-folder items whose name fails the non-empty
regex, emit the items whose visible index lies in the requested window, and
return the final visible count (`reply.nchilds`). -/
def filterPageLoop (m : String → Bool) (req : Request) : List ItemData → Int → List ItemData × Int
  | [], id => ([], id)
  | item :: rest, id =>
    if req.hidden = false ∧ item.hidden = true then filterPageLoop m req rest id
    else if req.regex ≠ "" ∧ item.folder = false ∧ m item.name = false then
      filterPageLoop m req rest id
    else
      let pr := filterPageLoop m req rest (id + 1)
      (if req.first ≤ id ∧ (req.number = 0 ∨ id < req.first + req.number) then item :: pr.1
       else pr.1, pr.2)

/-- The part of `ProcessBrowserRequest` after the resolution block: listing,
sorting, regex compilation (which may throw), filtering and pagination. -/
def processAfterResolve (compile : String → Option (String → Bool))
    (cmp : String → ItemData → ItemData → Bool) (st : BrowserData) (req : Request) : Outcome :=
  match listStep st with
  | none => Outcome.fail st
  | some st₂ =>
    let st₃ := sortStep cmp st₂ req
    match compile req.regex with
    | none => Outcome.thrown st₃
    | some m =>
      let pr := filterPageLoop m req st₃.fLastSortedItems 0
      Outcome.ok st₃ { nodes := pr.1, first := req.first, nchilds := pr.2 }

/-- `RBrowserData::ProcessBrowserRequest`: decompose the request path
relative to the working path; when it differs from the memoized path (or no
element is memoized) resolve it — failure returns false with only the cache
updated, success resets the memo and installs the new path and element —
then list, sort, filter and paginate. -/
def ProcessBrowserRequest (compile : String → Option (String → Bool))
    (cmp : String → ItemData → ItemData → Bool) (st : BrowserData) (req : Request) : Outcome :=
  let path := DecomposePath st.fWorkingPath req.path true
  if path ≠ st.fLastPath ∨ st.fLastElement.isNone then
    let ec := GetSubElement st.fTopElement st.fCache path
    match ec.1 with
    | none => Outcome.fail { st with fCache := ec.2 }
    | some elem =>
      processAfterResolve compile cmp
        { ResetLastRequest { st with fCache := ec.2 } with
            fLastPath := path, fLastElement := some elem } req
  else
    processAfterResolve compile cmp st req

/-- An item passes the hidden and regex filters of the pagination loop. -/
def keepB (m : String → Bool) (hidden : Bool) (rx : String) (it : ItemData) : Bool :=
  if hidden = false ∧ it.hidden = true then false
  else if rx ≠ "" ∧ it.folder = false ∧ m it.name = false then false
  else true

/-- The pagination window applied to the already-filtered visible sequence:
keep the items whose running index lies in the requested window. -/
def pageSelect (first number : Int) : List ItemData → Int → List ItemData
  | [], _ => []
  | item :: rest, id =>
    if first ≤ id ∧ (number = 0 ∨ id < first + number) then
      item :: pageSelect first number rest (id + 1)
    else pageSelect first number rest (id + 1)

/-- Every cache entry's value is the element obtained by resolving its key
from the top element against an empty cache (the data-model invariant of
the resolution cache). -/
def CacheOK (top : RElem) (cache : Cache) : Prop :=
  ∀ kv ∈ cache, resolveFrom top kv.1 = some kv.2

/-- Every strict nonempty prefix of a cached key is itself a cached key. -/
def PrefixClosed (cache : Cache) : Prop :=
  ∀ kv ∈ cache, ∀ j, 0 < j → j < kv.1.length → ∃ v', (kv.1.take j, v') ∈ cache

/-- The cache entries are in strictly ascending lexicographic key order. -/
def CacheSorted (cache : Cache) : Prop :=
  List.Pairwise (fun a b => pathLtB a.1 b.1 = true) cache

/-- The reachable-state invariant of the resolution cache. -/
def CacheInv (top : RElem) (cache : Cache) : Prop :=
  CacheSorted cache ∧ PrefixClosed cache ∧ CacheOK top cache

/-- Every remaining entry that could still win the scan against `path` at
match level `pos` is a full prefix of `path`, or its agreeing prefix is
itself still among the remaining entries. -/
def Protected (p : List String) (pos : Nat) (rest : Cache) : Prop :=
  ∀ kv ∈ rest, pos < ComparePaths p kv.1 →
    ComparePaths p kv.1 = kv.1.length ∨ ∃ v', (kv.1.take (ComparePaths p kv.1), v') ∈ rest

/-- A visible folder item. -/
def itemF (n : String) : ItemData := ⟨n, true, false⟩

/-- A visible non-folder item. -/
def itemL (n : String) : ItemData := ⟨n, false, false⟩

/-- A hidden non-folder item. -/
def itemH (n : String) : ItemData := ⟨n, false, true⟩

/-- A non-container element. -/
def leafElem (n : String) : RElem := RElem.mk (itemL n) none

/-- A top element with a single empty-container child named `x`. -/
def topElemA : RElem := RElem.mk (itemF "top") (some [RElem.mk (itemF "x") (some [])])

/-- A container top element with no children. -/
def topElemB : RElem := RElem.mk (itemF "top") (some [])

/-- A fresh browser state (empty cache, empty memo) over a top element. -/
def stIdle (top : RElem) : BrowserData :=
  { fTopElement := top, fWorkingPath := [], fCache := [], fLastAllChilds := false,
    fLastSortedItems := [], fLastSortMethod := "", fLastSortReverse := false,
    fLastItems := [], fLastPath := [], fLastElement := none }

/-- A state holding a memo for the path `["old"]`. -/
def stStale : BrowserData :=
  { (stIdle topElemB) with
      fLastPath := ["old"], fLastElement := some topElemB,
      fLastItems := [itemL "i1"], fLastSortedItems := [itemL "i1"], fLastSortMethod := "name" }

/-- A basic request with empty path and filters. -/
def reqBase : Request :=
  { path := "", sort := "", reverse := false, hidden := true, regex := "", first := 0, number := 0 }

/-- A request for a path that does not exist under `topElemB`. -/
def reqMissing : Request := { reqBase with path := "missing" }

/-- A request for the child `x` of `topElemA`. -/
def reqX : Request := { reqBase with path := "x", hidden := false }

/-- Regex compilation that always throws (models a malformed pattern). -/
def compileNone : String → Option (String → Bool) := fun _ => none

/-- Regex compilation that always succeeds with an accept-all matcher. -/
def compileAll : String → Option (String → Bool) := fun _ => some (fun _ => true)

/-- A matcher accepting every name. -/
def matchAll : String → Bool := fun _ => true

/-- A trivial comparator. -/
def cmpTrue : String → ItemData → ItemData → Bool := fun _ _ _ => true

/-- A small mixed item list used by the concrete witnesses. -/
def itemsMix : List ItemData := [itemF "d1", itemL "f1", itemH "h1", itemL "f2"]

/-- Every item of the list is non-hidden. -/
def AllVisible (l : List ItemData) : Prop := ∀ x ∈ l, x.hidden = false

/-- A request with sort key `"unsorted"` and the reverse flag set. -/
def reqUnsorted : Request := { reqBase with sort := "unsorted", reverse := true }

/-- A request with offset 1 and limit 2. -/
def reqPage : Request := { reqBase with first := 1, number := 2 }

/-- A request that does not show hidden items. -/
def reqHid : Request := { reqBase with hidden := false }

/-- A request with a negative offset and unbounded limit. -/
def reqNegOff : Request := { reqBase with first := -1, number := 0 }

/-- A request with a negative limit. -/
def reqNegLim : Request := { reqBase with number := -1 }

/-- The match length is at most the length of the first path. -/
theorem comparePaths_le_left (p k : List String) : ComparePaths p k ≤ p.length := by
  induction p generalizing k with
  | nil => cases k <;> simp [ComparePaths]
  | cons a as ih =>
    cases k with
    | nil => simp [ComparePaths]
    | cons b bs =>
      by_cases h : a = b
      · simpa [ComparePaths, h] using ih bs
      · simp [ComparePaths, h]

/-- The match length is at most the length of the second path. -/
theorem comparePaths_le_right (p k : List String) : ComparePaths p k ≤ k.length := by
  induction p generalizing k with
  | nil => cases k <;> simp [ComparePaths]
  | cons a as ih =>
    cases k with
    | nil => simp [ComparePaths]
    | cons b bs =>
      by_cases h : a = b
      · simpa [ComparePaths, h] using ih bs
      · simp [ComparePaths, h]

/-- The two paths agree on their match-length prefix. -/
theorem comparePaths_take_eq (p k : List String) :
    p.take (ComparePaths p k) = k.take (ComparePaths p k) := by
  induction p generalizing k with
  | nil => cases k <;> simp [ComparePaths]
  | cons a as ih =>
    cases k with
    | nil => simp [ComparePaths]
    | cons b bs =>
      by_cases h : a = b
      · simp [ComparePaths, h, List.take_succ_cons, ih bs]
      · simp [ComparePaths, h]

/-- A take-prefix of a path matches it on its full length. -/
theorem comparePaths_of_take (p : List String) :
    ∀ c, c ≤ p.length → ComparePaths p (p.take c) = c := by
  induction p with
  | nil =>
    intro c hc
    have : c = 0 := by simpa using hc
    subst this
    simp [ComparePaths]
  | cons a as ih =>
    intro c hc
    cases c with
    | zero => simp [ComparePaths]
    | succ c' => simp [ComparePaths, List.take_succ_cons, ih c' (by simpa using hc)]

/-- Lexicographic comparison is irreflexive. -/
theorem pathLtB_irrefl (l : List String) : pathLtB l l = false := by
  induction l with
  | nil => rfl
  | cons a as ih => simp [pathLtB, lt_irrefl, ih]

/-- Lexicographic comparison is asymmetric. -/
theorem pathLtB_asymm : ∀ a b : List String, pathLtB a b = true → pathLtB b a = false := by
  intro a
  induction a with
  | nil => intro b h; cases b <;> simp_all [pathLtB]
  | cons x xs ih =>
    intro b h
    cases b with
    | nil => simp_all [pathLtB]
    | cons y ys =>
      by_cases hxy : x < y
      · have : ¬ y < x := lt_asymm hxy
        simp [pathLtB, this, hxy]
      · by_cases hyx : y < x
        · simp_all [pathLtB]
        · have := ih ys
          simp_all [pathLtB]

/-- Lexicographic comparison is transitive. -/
theorem pathLtB_trans : ∀ a b c : List String,
    pathLtB a b = true → pathLtB b c = true → pathLtB a c = true := by
  intro a
  induction a with
  | nil =>
    intro b c hab hbc
    cases b <;> cases c <;> simp_all [pathLtB]
  | cons x xs ih =>
    intro b c hab hbc
    cases b with
    | nil => simp_all [pathLtB]
    | cons y ys =>
      cases c with
      | nil => simp_all [pathLtB]
      | cons z zs =>
        by_cases hxy : x < y <;> by_cases hyz : y < z
        · have hxz : x < z := lt_trans hxy hyz
          simp [pathLtB, hxz]
        · by_cases hzy : z < y
          · simp_all [pathLtB]
          · have hyez : y = z := le_antisymm (le_of_not_lt hzy) (le_of_not_lt hyz)
            subst hyez
            simp [pathLtB, hxy]
        · by_cases hyx : y < x
          · simp_all [pathLtB]
          · have hxey : x = y := le_antisymm (le_of_not_lt hyx) (le_of_not_lt hxy)
            subst hxey
            simp [pathLtB, hyz]
        · by_cases hyx : y < x
          · simp_all [pathLtB]
          · by_cases hzy : z < y
            · simp_all [pathLtB]
            · have hxey : x = y := le_antisymm (le_of_not_lt hyx) (le_of_not_lt hxy)
              have hyez : y = z := le_antisymm (le_of_not_lt hzy) (le_of_not_lt hyz)
              subst hxey; subst hyez
              have hx := pathLtB_irrefl
              simp_all [pathLtB]
              exact ih ys zs hab hbc

/-- Paths unrelated in either direction are equal. -/
theorem pathLtB_eq_of_not : ∀ a b : List String,
    pathLtB a b = false → pathLtB b a = false → a = b := by
  intro a
  induction a with
  | nil => intro b h1 h2; cases b <;> simp_all [pathLtB]
  | cons x xs ih =>
    intro b h1 h2
    cases b with
    | nil => simp_all [pathLtB]
    | cons y ys =>
      by_cases hxy : x < y
      · simp_all [pathLtB]
      · by_cases hyx : y < x
        · simp_all [pathLtB]
        · have hxey : x = y := le_antisymm (le_of_not_lt hyx) (le_of_not_lt hxy)
          subst hxey
          simp_all [pathLtB]
          exact ih ys h1 h2

/-- A strict take-prefix is lexicographically smaller. -/
theorem pathLtB_take_lt : ∀ (k : List String) (j : Nat), j < k.length →
    pathLtB (k.take j) k = true := by
  intro k
  induction k with
  | nil => intro j h; simp at h
  | cons x xs ih =>
    intro j h
    cases j with
    | zero => simp [pathLtB]
    | succ j' =>
      simp [List.take_succ_cons, pathLtB, lt_irrefl]
      exact ih j' (by simpa using h)

/-- The inserted pair is present after insertion. -/
theorem cacheInsert_self : ∀ (c : Cache) (k : List String) (v : RElem),
    (k, v) ∈ cacheInsert c k v := by
  intro c k v
  induction c with
  | nil => simp [cacheInsert]
  | cons e rest ih =>
    by_cases h1 : pathLtB k e.1
    · simp [cacheInsert, h1]
    · by_cases h2 : pathLtB e.1 k
      · simp [cacheInsert, h1, h2, ih]
      · have hk : e.1 = k :=
          pathLtB_eq_of_not e.1 k (Bool.eq_false_iff.mpr h2) (Bool.eq_false_iff.mpr h1)
        simp [cacheInsert, h1, h2, hk, pathLtB_irrefl]

/-- A member of the inserted cache is the new pair or an old member. -/
theorem cacheInsert_mem : ∀ (c : Cache) (k : List String) (v : RElem) (kv : List String × RElem),
    kv ∈ cacheInsert c k v → kv = (k, v) ∨ kv ∈ c := by
  intro c k v
  induction c with
  | nil => intro kv h; simp [cacheInsert] at h; exact Or.inl h
  | cons e rest ih =>
    intro kv h
    by_cases h1 : pathLtB k e.1
    · simp [cacheInsert, h1] at h
      rcases h with h | h | h
      · exact Or.inl h
      · exact Or.inr (by simp [h])
      · exact Or.inr (List.mem_cons_of_mem _ h)
    · by_cases h2 : pathLtB e.1 k
      · simp [cacheInsert, h1, h2] at h
        rcases h with h | h
        · exact Or.inr (by simp [h])
        · rcases ih kv h with h' | h'
          · exact Or.inl h'
          · exact Or.inr (List.mem_cons_of_mem _ h')
      · have hk : e.1 = k :=
          pathLtB_eq_of_not e.1 k (Bool.eq_false_iff.mpr h2) (Bool.eq_false_iff.mpr h1)
        simp [cacheInsert, h1, h2] at h
        rcases h with h | h
        · exact Or.inl (by simp [h, hk])
        · exact Or.inr (List.mem_cons_of_mem _ h)

/-- Insertion preserves the presence of every existing key. -/
theorem cacheInsert_exists : ∀ (c : Cache) (k : List String) (v : RElem) (k₀ : List String),
    (∃ v₀, (k₀, v₀) ∈ c) → ∃ v', (k₀, v') ∈ cacheInsert c k v := by
  intro c k v
  induction c with
  | nil => intro k₀ h; rcases h with ⟨v₀, h⟩; simp at h
  | cons e rest ih =>
    intro k₀ h
    rcases h with ⟨v₀, h⟩
    by_cases h1 : pathLtB k e.1
    · exact ⟨v₀, by simp [cacheInsert, h1, List.mem_cons_of_mem _ h]⟩
    · by_cases h2 : pathLtB e.1 k
      · rcases List.mem_cons.mp h with h' | h'
        · refine ⟨v₀, ?_⟩
          have hins : cacheInsert (e :: rest) k v = e :: cacheInsert rest k v := by
            simp [cacheInsert, h1, h2]
          rw [hins, h']
          exact List.mem_cons_self _ _
        · rcases ih k₀ ⟨v₀, h'⟩ with ⟨v', hv'⟩
          exact ⟨v', by simp [cacheInsert, h1, h2, hv']⟩
      · have hk : e.1 = k :=
          pathLtB_eq_of_not e.1 k (Bool.eq_false_iff.mpr h2) (Bool.eq_false_iff.mpr h1)
        rcases List.mem_cons.mp h with h' | h'
        · refine ⟨v, ?_⟩
          simp [cacheInsert, h1, h2]
          left
          have : k₀ = e.1 := congrArg Prod.fst h'
          simp [this]
        · exact ⟨v₀, by simp [cacheInsert, h1, h2, h']⟩

/-- Insertion keeps the cache in strictly ascending key order. -/
theorem cacheInsert_sorted : ∀ (c : Cache) (k : List String) (v : RElem),
    CacheSorted c → CacheSorted (cacheInsert c k v) := by
  intro c k v
  induction c with
  | nil => intro _; simp [cacheInsert, CacheSorted]
  | cons e rest ih =>
    intro hs
    rcases List.pairwise_cons.mp hs with ⟨hhead, htail⟩
    by_cases h1 : pathLtB k e.1
    · have hins : cacheInsert (e :: rest) k v = (k, v) :: e :: rest := by
        simp [cacheInsert, h1]
      unfold CacheSorted
      rw [hins]
      refine List.pairwise_cons.mpr ⟨?_, hs⟩
      intro x hx
      rcases List.mem_cons.mp hx with h' | h'
      · simp [h', h1]
      · exact pathLtB_trans k e.1 x.1 h1 (hhead x h')
    · by_cases h2 : pathLtB e.1 k
      · have hins : cacheInsert (e :: rest) k v = e :: cacheInsert rest k v := by
          simp [cacheInsert, h1, h2]
        unfold CacheSorted
        rw [hins]
        refine List.pairwise_cons.mpr ⟨?_, ih htail⟩
        intro x hx
        rcases cacheInsert_mem rest k v x hx with h' | h'
        · simp [h', h2]
        · exact hhead x h'
      · have hins : cacheInsert (e :: rest) k v = (e.1, v) :: rest := by
          simp [cacheInsert, h1, h2]
        unfold CacheSorted
        rw [hins]
        exact List.pairwise_cons.mpr ⟨fun x hx => hhead x hx, htail⟩

/-- Insertion of a correctly-resolved entry preserves the cache invariant on
values. -/
theorem cacheInsert_cacheOK (top : RElem) (c : Cache) (k : List String) (v : RElem)
    (hok : CacheOK top c) (hres : resolveFrom top k = some v) :
    CacheOK top (cacheInsert c k v) := by
  intro kv hkv
  rcases cacheInsert_mem c k v kv hkv with h | h
  · simp [h, hres]
  · exact hok kv h

/-- Insertion preserves prefix-closedness when the new key's strict prefixes
are already present. -/
theorem cacheInsert_prefixClosed (c : Cache) (k : List String) (v : RElem)
    (hpc : PrefixClosed c)
    (hpre : ∀ j, 0 < j → j < k.length → ∃ v', (k.take j, v') ∈ c) :
    PrefixClosed (cacheInsert c k v) := by
  intro kv hkv j hj0 hjlen
  rcases cacheInsert_mem c k v kv hkv with h | h
  · subst h
    rcases hpre j hj0 hjlen with ⟨v', hv'⟩
    exact cacheInsert_exists c k v _ ⟨v', hv'⟩
  · rcases hpc kv h j hj0 hjlen with ⟨v', hv'⟩
    exact cacheInsert_exists c k v _ ⟨v', hv'⟩

/-- Resolution distributes over path concatenation. -/
theorem resolveFrom_append (t : RElem) (a b : List String) :
    resolveFrom t (a ++ b) = (resolveFrom t a).bind (fun u => resolveFrom u b) := by
  induction a generalizing t with
  | nil => simp [resolveFrom]
  | cons n as ih =>
    cases t with
    | mk d c =>
      cases c with
      | none => simp [resolveFrom, RElem.childs]
      | some cs =>
        cases hf : cs.find? (fun c => c.data.name == n) with
        | none => simp [resolveFrom, RElem.childs, hf]
        | some child => simp [resolveFrom, RElem.childs, hf, ih]

/-- A prefix-closed cache is protected at every match level. -/
theorem protected_of_prefixClosed (p : List String) (cache : Cache)
    (hpc : PrefixClosed cache) (pos : Nat) : Protected p pos cache := by
  intro kv hkv hgt
  by_cases h : ComparePaths p kv.1 = kv.1.length
  · exact Or.inl h
  · right
    exact hpc kv hkv _ (by omega) (lt_of_le_of_ne (comparePaths_le_right p kv.1) h)

/-- On a sorted, protected cache with correct values, the scan returns a
match level within the path together with the correctly resolved element of
that take-prefix of the path. -/
theorem cacheScan_spec (top : RElem) (p : List String) :
    ∀ (rest : Cache) (pos : Nat) (elem : RElem),
      (∀ kv ∈ rest, resolveFrom top kv.1 = some kv.2) →
      CacheSorted rest →
      Protected p pos rest →
      resolveFrom top (p.take pos) = some elem →
      pos ≤ p.length →
      resolveFrom top (p.take (cacheScan rest p pos elem).1) = some (cacheScan rest p pos elem).2 ∧
      (cacheScan rest p pos elem).1 ≤ p.length ∧
      pos ≤ (cacheScan rest p pos elem).1 ∧
      ((cacheScan rest p pos elem).1 = pos ∨
        ∃ kv, kv ∈ rest ∧ ComparePaths p kv.1 = (cacheScan rest p pos elem).1) := by
  intro rest
  induction rest with
  | nil =>
    intro pos elem _ _ _ hres hlen
    exact ⟨hres, hlen, le_refl _, Or.inl rfl⟩
  | cons e rest ih =>
    intro pos elem hok hsort hprot hres hlen
    rcases List.pairwise_cons.mp hsort with ⟨hhead, htail⟩
    by_cases hc : pos < ComparePaths p e.1
    · have hscan : cacheScan (e :: rest) p pos elem =
          cacheScan rest p (ComparePaths p e.1) e.2 := by
        simp [cacheScan, hc]
      have hclen : ComparePaths p e.1 = e.1.length := by
        rcases hprot e (List.mem_cons_self _ _) hc with h | ⟨v', hv'⟩
        · exact h
        · rcases List.mem_cons.mp hv' with h1 | h1
          · have h2 : e.1.take (ComparePaths p e.1) = e.1 := congrArg Prod.fst h1
            have h3 : (e.1.take (ComparePaths p e.1)).length = ComparePaths p e.1 := by
              rw [List.length_take]
              exact min_eq_left (comparePaths_le_right p e.1)
            rw [h2] at h3
            omega
          · by_contra hne
            have hlt1 : pathLtB (e.1.take (ComparePaths p e.1)) e.1 = true :=
              pathLtB_take_lt e.1 _ (lt_of_le_of_ne (comparePaths_le_right p e.1) hne)
            have hlt2 : pathLtB e.1 (e.1.take (ComparePaths p e.1)) = true := hhead _ h1
            have h4 := pathLtB_asymm _ _ hlt1
            rw [h4] at hlt2
            exact Bool.false_ne_true hlt2
      have hres' : resolveFrom top (p.take (ComparePaths p e.1)) = some e.2 := by
        have ht : p.take (ComparePaths p e.1) = e.1 := by
          rw [comparePaths_take_eq p e.1, hclen, List.take_length]
        rw [ht]
        exact hok e (List.mem_cons_self _ _)
      have hprot' : Protected p (ComparePaths p e.1) rest := by
        intro kv hkv hgt
        rcases hprot kv (List.mem_cons_of_mem _ hkv) (lt_trans hc hgt) with h | ⟨v', hv'⟩
        · exact Or.inl h
        · rcases List.mem_cons.mp hv' with h1 | h1
          · exfalso
            have hk : e.1 = kv.1.take (ComparePaths p kv.1) := (congrArg Prod.fst h1).symm
            have h2 : kv.1.take (ComparePaths p kv.1) = p.take (ComparePaths p kv.1) :=
              (comparePaths_take_eq p kv.1).symm
            have h3 : ComparePaths p e.1 = ComparePaths p kv.1 := by
              rw [hk, h2, comparePaths_of_take p _ (comparePaths_le_left p kv.1)]
            omega
          · exact Or.inr ⟨v', h1⟩
      have hmain := ih (ComparePaths p e.1) e.2
        (fun kv hkv => hok kv (List.mem_cons_of_mem _ hkv)) htail hprot' hres'
        (comparePaths_le_left p e.1)
      rw [hscan]
      refine ⟨hmain.1, hmain.2.1, le_trans (le_of_lt hc) hmain.2.2.1, ?_⟩
      rcases hmain.2.2.2 with h | ⟨kv, hkv, hkv2⟩
      · exact Or.inr ⟨e, List.mem_cons_self _ _, h.symm⟩
      · exact Or.inr ⟨kv, List.mem_cons_of_mem _ hkv, hkv2⟩
    · have hscan : cacheScan (e :: rest) p pos elem = cacheScan rest p pos elem := by
        simp [cacheScan, hc]
      have hprot' : Protected p pos rest := by
        intro kv hkv hgt
        rcases hprot kv (List.mem_cons_of_mem _ hkv) hgt with h | ⟨v', hv'⟩
        · exact Or.inl h
        · rcases List.mem_cons.mp hv' with h1 | h1
          · exfalso
            have hk : e.1 = kv.1.take (ComparePaths p kv.1) := (congrArg Prod.fst h1).symm
            have h2 : kv.1.take (ComparePaths p kv.1) = p.take (ComparePaths p kv.1) :=
              (comparePaths_take_eq p kv.1).symm
            have h3 : ComparePaths p e.1 = ComparePaths p kv.1 := by
              rw [hk, h2, comparePaths_of_take p _ (comparePaths_le_left p kv.1)]
            omega
          · exact Or.inr ⟨v', h1⟩
      have hmain := ih pos elem
        (fun kv hkv => hok kv (List.mem_cons_of_mem _ hkv)) htail hprot' hres hlen
      rw [hscan]
      refine ⟨hmain.1, hmain.2.1, hmain.2.2.1, ?_⟩
      rcases hmain.2.2.2 with h | ⟨kv, hkv, hkv2⟩
      · exact Or.inl h
      · exact Or.inr ⟨kv, List.mem_cons_of_mem _ hkv, hkv2⟩

/-- Every nonempty take-prefix of the path up to a matched entry's level is
itself a cached key, by prefix-closedness. -/
theorem avail_of_entry (p : List String) (cache : Cache) (m : Nat)
    (hpc : PrefixClosed cache)
    (hex : ∃ kv, kv ∈ cache ∧ ComparePaths p kv.1 = m) :
    ∀ j, 0 < j → j ≤ m → ∃ v', (p.take j, v') ∈ cache := by
  rcases hex with ⟨kv, hkv, hm⟩
  intro j hj0 hjm
  have h1 : p.take m = kv.1.take m := by
    rw [← hm]; exact comparePaths_take_eq p kv.1
  have htj : p.take j = kv.1.take j := by
    have h2 := congrArg (List.take j) h1
    rwa [List.take_take, List.take_take, min_eq_left hjm] at h2
  by_cases hlt : j < kv.1.length
  · rcases hpc kv hkv j hj0 hlt with ⟨v', hv'⟩
    exact ⟨v', by rwa [htj]⟩
  · have hmle : m ≤ kv.1.length := by
      rw [← hm]; exact comparePaths_le_right p kv.1
    have hj : j = kv.1.length := by omega
    refine ⟨kv.2, ?_⟩
    have ht : p.take j = kv.1 := by rw [htj, hj, List.take_length]
    rw [ht]
    exact hkv

/-- The resolution loop computes plain resolution from its current element
and preserves the full cache invariant. -/
theorem walkFrom_spec (top : RElem) :
    ∀ (rest : List String) (cache : Cache) (done : List String) (elem : RElem),
      resolveFrom top done = some elem →
      CacheSorted cache → PrefixClosed cache → CacheOK top cache →
      (∀ j, 0 < j → j ≤ done.length → ∃ v', (done.take j, v') ∈ cache) →
      (walkFrom cache done rest elem).1 = resolveFrom elem rest ∧
      CacheSorted (walkFrom cache done rest elem).2 ∧
      PrefixClosed (walkFrom cache done rest elem).2 ∧
      CacheOK top (walkFrom cache done rest elem).2 := by
  intro rest
  induction rest with
  | nil =>
    intro cache done elem _ hsort hpc hok _
    exact ⟨by simp [walkFrom, resolveFrom], hsort, hpc, hok⟩
  | cons name rest' ih =>
    intro cache done elem hres hsort hpc hok havail
    cases elem with
    | mk d c =>
      cases c with
      | none =>
        have hwalk : walkFrom cache done (name :: rest') (RElem.mk d none) = (none, cache) := by
          simp [walkFrom, RElem.childs]
        have hresolve : resolveFrom (RElem.mk d none) (name :: rest') = none := by
          simp [resolveFrom, RElem.childs]
        rw [hwalk, hresolve]
        exact ⟨rfl, hsort, hpc, hok⟩
      | some cs =>
        cases hf : cs.find? (fun c => c.data.name == name) with
        | none =>
          have hwalk : walkFrom cache done (name :: rest') (RElem.mk d (some cs)) =
              (none, cache) := by
            simp [walkFrom, RElem.childs, hf]
          have hresolve : resolveFrom (RElem.mk d (some cs)) (name :: rest') = none := by
            simp [resolveFrom, RElem.childs, hf]
          rw [hwalk, hresolve]
          exact ⟨rfl, hsort, hpc, hok⟩
        | some child =>
          have hstep : resolveFrom top (done ++ [name]) = some child := by
            rw [resolveFrom_append, hres]
            simp [resolveFrom, RElem.childs, hf]
          have hlen : (done ++ [name]).length = done.length + 1 := by simp
          have hpre : ∀ j, 0 < j → j < (done ++ [name]).length →
              ∃ v', ((done ++ [name]).take j, v') ∈ cache := by
            intro j hj0 hjlt
            rw [hlen] at hjlt
            have hjle : j ≤ done.length := by omega
            have ht : (done ++ [name]).take j = done.take j :=
              List.take_append_of_le_length hjle
            rw [ht]
            exact havail j hj0 hjle
          have havail' : ∀ j, 0 < j → j ≤ (done ++ [name]).length →
              ∃ v', ((done ++ [name]).take j, v') ∈
                cacheInsert cache (done ++ [name]) child := by
            intro j hj0 hjle
            rw [hlen] at hjle
            by_cases hj : j ≤ done.length
            · have ht : (done ++ [name]).take j = done.take j :=
                List.take_append_of_le_length hj
              rw [ht]
              rcases havail j hj0 hj with ⟨v', hv'⟩
              exact cacheInsert_exists cache _ child _ ⟨v', hv'⟩
            · have hj1 : j = done.length + 1 := by omega
              have ht : (done ++ [name]).take j = done ++ [name] := by
                rw [hj1, ← hlen, List.take_length]
              rw [ht]
              exact ⟨child, cacheInsert_self cache _ child⟩
          have hmain := ih (cacheInsert cache (done ++ [name]) child) (done ++ [name]) child
            hstep
            (cacheInsert_sorted cache _ child hsort)
            (cacheInsert_prefixClosed cache _ child hpc hpre)
            (cacheInsert_cacheOK top cache _ child hok hstep)
            havail'
          have hwalk : walkFrom cache done (name :: rest') (RElem.mk d (some cs)) =
              walkFrom (cacheInsert cache (done ++ [name]) child) (done ++ [name]) rest' child := by
            simp [walkFrom, RElem.childs, hf]
          have hresolve : resolveFrom (RElem.mk d (some cs)) (name :: rest') =
              resolveFrom child rest' := by
            simp [resolveFrom, RElem.childs, hf]
          rw [hwalk, hresolve]
          exact hmain

/-- The empty cache satisfies the invariant. -/
theorem cacheInv_nil (top : RElem) : CacheInv top [] := by
  refine ⟨List.Pairwise.nil, ?_, ?_⟩ <;> intro kv hkv <;> simp at hkv

/-- On any state satisfying the cache invariant, `GetSubElement` computes
exactly cold resolution from the top element, and the invariant holds for
the updated cache. -/
theorem GetSubElement_spec (top : RElem) (cache : Cache) (path : List String)
    (h : CacheInv top cache) :
    (GetSubElement top cache path).1 = resolveFrom top path ∧
    CacheInv top (GetSubElement top cache path).2 := by
  obtain ⟨hsort, hpc, hok⟩ := h
  by_cases hp : path = []
  · subst hp
    exact ⟨by simp [GetSubElement, resolveFrom], hsort, hpc, hok⟩
  · have hscan := cacheScan_spec top path cache 0 top hok hsort
      (protected_of_prefixClosed path cache hpc 0) (by simp [resolveFrom]) (Nat.zero_le _)
    obtain ⟨hres, hlen, _, hdisj⟩ := hscan
    have havail : ∀ j, 0 < j → j ≤ (path.take (cacheScan cache path 0 top).1).length →
        ∃ v', ((path.take (cacheScan cache path 0 top).1).take j, v') ∈ cache := by
      intro j hj0 hjle
      have hlen' : (path.take (cacheScan cache path 0 top).1).length =
          (cacheScan cache path 0 top).1 := by
        rw [List.length_take]
        exact min_eq_left hlen
      rw [hlen'] at hjle
      have htt : (path.take (cacheScan cache path 0 top).1).take j = path.take j := by
        rw [List.take_take]
        congr 1
        omega
      rw [htt]
      rcases hdisj with h0 | hex
      · omega
      · exact avail_of_entry path cache _ hpc hex j hj0 hjle
    have hwalk := walkFrom_spec top (path.drop (cacheScan cache path 0 top).1) cache
      (path.take (cacheScan cache path 0 top).1) (cacheScan cache path 0 top).2
      hres hsort hpc hok havail
    have hgse : GetSubElement top cache path =
        walkFrom cache (path.take (cacheScan cache path 0 top).1)
          (path.drop (cacheScan cache path 0 top).1) (cacheScan cache path 0 top).2 := by
      simp [GetSubElement, hp]
    rw [hgse]
    refine ⟨?_, hwalk.2.1, hwalk.2.2.1, hwalk.2.2.2⟩
    rw [hwalk.1]
    have hsplit : resolveFrom top path =
        resolveFrom top (path.take (cacheScan cache path 0 top).1 ++
          path.drop (cacheScan cache path 0 top).1) := by
      rw [List.take_append_drop]
    rw [hsplit, resolveFrom_append, hres]
    rfl

/-- Full characterisation of the child-listing loop from counter `id`: it
emits the first `10002 - id` children and reports completeness exactly when
at most `10001 - id` children exist. -/
theorem buildDirectChilds_spec : ∀ (cs : List RElem) (id : Nat), id ≤ 10001 →
    (buildDirectChilds cs id).1 = (cs.take (10002 - id)).map RElem.data ∧
    (buildDirectChilds cs id).2 = decide (cs.length ≤ 10001 - id) := by
  intro cs
  induction cs with
  | nil => intro id _; simp [buildDirectChilds]
  | cons t rest ih =>
    intro id hid
    by_cases h1 : id > 10000
    · have h2 : id = 10001 := by omega
      subst h2
      constructor
      · simp [buildDirectChilds]
      · simp [buildDirectChilds]
    · have h2 := ih (id + 1) (by omega)
      have hbd : buildDirectChilds (t :: rest) id =
          (t.data :: (buildDirectChilds rest (id + 1)).1, (buildDirectChilds rest (id + 1)).2) := by
        simp [buildDirectChilds, h1]
      rw [hbd]
      constructor
      · rw [h2.1]
        have h3 : 10002 - id = (10002 - (id + 1)) + 1 := by omega
        rw [h3]
        simp
      · rw [h2.2]
        rw [decide_eq_decide]
        simp only [List.length_cons]
        omega

/-- The filter/pagination loop factors through the kept-item filter followed
by the pagination window, and returns the visible count shifted by the
starting index. -/
theorem filterPageLoop_eq (m : String → Bool) (req : Request) : ∀ (l : List ItemData) (id : Int),
    filterPageLoop m req l id =
      (pageSelect req.first req.number (l.filter (keepB m req.hidden req.regex)) id,
       id + ((l.filter (keepB m req.hidden req.regex)).length : Int)) := by
  intro l
  induction l with
  | nil => intro id; simp [filterPageLoop, pageSelect]
  | cons item rest ih =>
    intro id
    by_cases h1 : req.hidden = false ∧ item.hidden = true
    · have hk : keepB m req.hidden req.regex item = false := by
        simp only [keepB]
        rw [if_pos h1]
      have hfp : filterPageLoop m req (item :: rest) id = filterPageLoop m req rest id := by
        simp [filterPageLoop, h1]
      have hfl : (item :: rest).filter (keepB m req.hidden req.regex) =
          rest.filter (keepB m req.hidden req.regex) := by
        simp [List.filter_cons, hk]
      rw [hfp, hfl, ih]
    · by_cases h2 : req.regex ≠ "" ∧ item.folder = false ∧ m item.name = false
      · have hk : keepB m req.hidden req.regex item = false := by
          simp only [keepB]
          rw [if_neg h1, if_pos h2]
        have hfp : filterPageLoop m req (item :: rest) id = filterPageLoop m req rest id := by
          simp [filterPageLoop, h1, h2]
        have hfl : (item :: rest).filter (keepB m req.hidden req.regex) =
            rest.filter (keepB m req.hidden req.regex) := by
          simp [List.filter_cons, hk]
        rw [hfp, hfl, ih]
      · have hk : keepB m req.hidden req.regex item = true := by
          simp only [keepB]
          rw [if_neg h1, if_neg h2]
        have hfp : filterPageLoop m req (item :: rest) id =
            (if req.first ≤ id ∧ (req.number = 0 ∨ id < req.first + req.number) then
              item :: (filterPageLoop m req rest (id + 1)).1
             else (filterPageLoop m req rest (id + 1)).1,
             (filterPageLoop m req rest (id + 1)).2) := by
          simp [filterPageLoop, h1, h2]
        have hnodes : (filterPageLoop m req rest (id + 1)).1 =
            pageSelect req.first req.number
              (rest.filter (keepB m req.hidden req.regex)) (id + 1) := by
          rw [ih]
        have htot : (filterPageLoop m req rest (id + 1)).2 =
            id + 1 + ((rest.filter (keepB m req.hidden req.regex)).length : Int) := by
          rw [ih]
        have hfl : (item :: rest).filter (keepB m req.hidden req.regex) =
            item :: rest.filter (keepB m req.hidden req.regex) := by
          simp [List.filter_cons, hk]
        rw [hfp, hnodes, htot, hfl, Prod.mk.injEq]
        constructor
        · simp only [pageSelect]
        · simp only [List.length_cons]
          push_cast
          ring

/-- A negative limit makes the pagination window empty. -/
theorem pageSelect_of_neg (f n : Int) (hn : n < 0) :
    ∀ (l : List ItemData) (id : Int), pageSelect f n l id = [] := by
  intro l
  induction l with
  | nil => intro id; simp [pageSelect]
  | cons item rest ih =>
    intro id
    have hc : ¬(f ≤ id ∧ (n = 0 ∨ id < f + n)) := by
      rintro ⟨h1, h2 | h2⟩ <;> omega
    simp [pageSelect, hc, ih]

/-- With an unbounded window starting at or below the current index, the
pagination keeps everything. -/
theorem pageSelect_all (f : Int) : ∀ (l : List ItemData) (id : Int), f ≤ id →
    pageSelect f 0 l id = l := by
  intro l
  induction l with
  | nil => intro id _; simp [pageSelect]
  | cons item rest ih =>
    intro id h
    have hc : f ≤ id ∧ ((0 : Int) = 0 ∨ id < f + 0) := ⟨h, Or.inl rfl⟩
    simp [pageSelect, hc, ih (id + 1) (by omega)]

/-- With a positive limit and a window already open, pagination is a take of
the remaining upper window. -/
theorem pageSelect_take (f n : Int) (hn : 0 < n) :
    ∀ (l : List ItemData) (id : Int), f ≤ id →
    pageSelect f n l id = l.take (f + n - id).toNat := by
  intro l
  induction l with
  | nil => intro id _; simp [pageSelect]
  | cons item rest ih =>
    intro id hf
    by_cases h2 : id < f + n
    · have hc : f ≤ id ∧ (n = 0 ∨ id < f + n) := ⟨hf, Or.inr h2⟩
      have ht : (f + n - id).toNat = (f + n - (id + 1)).toNat + 1 := by omega
      simp [pageSelect, hc, ih (id + 1) (by omega), ht]
    · have hc : ¬(f ≤ id ∧ (n = 0 ∨ id < f + n)) := by
        rintro ⟨_, h | h⟩ <;> omega
      have ht : (f + n - id).toNat = 0 := by omega
      have ht2 : (f + n - (id + 1)).toNat = 0 := by omega
      simp [pageSelect, hc, ih (id + 1) (by omega), ht, ht2]

/-- Length of the pagination output for an unbounded window. -/
theorem pageSelect_length_zero (f : Int) : ∀ (l : List ItemData) (id : Int),
    ((pageSelect f 0 l id).length : Int) = max 0 (id + l.length - max id f) := by
  intro l
  induction l with
  | nil =>
    intro id
    simp only [pageSelect, List.length_nil, Nat.cast_zero]
    omega
  | cons item rest ih =>
    intro id
    have hrec := ih (id + 1)
    simp only [pageSelect]
    split
    · rename_i hc
      have hf : f ≤ id := hc.1
      simp only [List.length_cons]
      push_cast at hrec ⊢
      omega
    · rename_i hc
      have hf : ¬ f ≤ id := fun hf => hc ⟨hf, Or.inl trivial⟩
      simp only [List.length_cons]
      push_cast at hrec ⊢
      omega

/-- Length of the pagination output for a positive limit. -/
theorem pageSelect_length_pos (f n : Int) (hn : 0 < n) : ∀ (l : List ItemData) (id : Int),
    ((pageSelect f n l id).length : Int) = max 0 (min (id + l.length) (f + n) - max id f) := by
  intro l
  induction l with
  | nil =>
    intro id
    simp only [pageSelect, List.length_nil, Nat.cast_zero]
    omega
  | cons item rest ih =>
    intro id
    have hrec := ih (id + 1)
    simp only [pageSelect]
    split
    · simp only [List.length_cons]
      push_cast at hrec ⊢
      omega
    · simp only [List.length_cons]
      push_cast at hrec ⊢
      omega

/-- C1: resolving a path `P2` through `GetSubElement` with a cache warmed by
a previous resolution of `P1` returns the same element as resolving `P2`
against an empty cache — the prefix cache is a pure optimisation and never
changes resolution outcomes on an unchanged tree. -/
theorem c1_cache_transparent (top : RElem) (P1 P2 : List String) :
    (GetSubElement top (GetSubElement top [] P1).2 P2).1 = (GetSubElement top [] P2).1 := by
  have h0 := cacheInv_nil top
  have h1 := GetSubElement_spec top [] P1 h0
  have h2 := GetSubElement_spec top (GetSubElement top [] P1).2 P2 h1.2
  have h3 := GetSubElement_spec top [] P2 h0
  rw [h2.1, h3.1]

/-- C9: `GetSubElement`, the only operation writing the resolution cache,
preserves the cache invariant: afterwards every entry's element is exactly
the one obtained by resolving the entry's key from the top element against
an empty cache. -/
theorem c9_cache_invariant (top : RElem) (cache : Cache) (path : List String)
    (h : CacheInv top cache) : CacheOK top (GetSubElement top cache path).2 :=
  (GetSubElement_spec top cache path h).2.2.2

/-- Witness for C9 at a concrete tree, cache and path. -/
theorem c9_cache_invariant_witness :
    CacheInv topElemA [] ∧ CacheOK topElemA (GetSubElement topElemA [] ["x"]).2 :=
  ⟨cacheInv_nil topElemA, c9_cache_invariant topElemA [] ["x"] (cacheInv_nil topElemA)⟩

/-- C10: setting the top element, the working directory, or the working path
clears the entire last-request memo (completeness flag, sorted sequence,
sort method, raw item snapshot, last path, last element), so no listing or
sorted order computed before the change can be reused afterwards. -/
theorem c10_setters_reset (st : BrowserData) (elem : RElem) (strpath : String)
    (path : List String) :
    ((SetTopElement st elem).fLastAllChilds = false ∧
     (SetTopElement st elem).fLastSortedItems = [] ∧
     (SetTopElement st elem).fLastSortMethod = "" ∧
     (SetTopElement st elem).fLastItems = [] ∧
     (SetTopElement st elem).fLastPath = [] ∧
     (SetTopElement st elem).fLastElement = none) ∧
    ((SetWorkingDirectory st strpath).fLastAllChilds = false ∧
     (SetWorkingDirectory st strpath).fLastSortedItems = [] ∧
     (SetWorkingDirectory st strpath).fLastSortMethod = "" ∧
     (SetWorkingDirectory st strpath).fLastItems = [] ∧
     (SetWorkingDirectory st strpath).fLastPath = [] ∧
     (SetWorkingDirectory st strpath).fLastElement = none) ∧
    ((SetWorkingPath st path).fLastAllChilds = false ∧
     (SetWorkingPath st path).fLastSortedItems = [] ∧
     (SetWorkingPath st path).fLastSortMethod = "" ∧
     (SetWorkingPath st path).fLastItems = [] ∧
     (SetWorkingPath st path).fLastPath = [] ∧
     (SetWorkingPath st path).fLastElement = none) :=
  ⟨⟨rfl, rfl, rfl, rfl, rfl, rfl⟩, ⟨rfl, rfl, rfl, rfl, rfl, rfl⟩,
   ⟨rfl, rfl, rfl, rfl, rfl, rfl⟩⟩

/-- C3 amended: the raw listing holds exactly the first 10002 children (so a
container with 10001 children is listed completely), and the completeness
flag is true exactly when the container has at most 10001 children; with
10003 or more children the 10003rd and later children are absent and the
flag is false. -/
theorem c3_cap_behaviour (cs : List RElem) :
    (buildDirectChilds cs 0).1 = (cs.take 10002).map RElem.data ∧
    ((buildDirectChilds cs 0).2 = decide (cs.length ≤ 10001)) := by
  have h := buildDirectChilds_spec cs 0 (by omega)
  simpa using h

/-- C3 counterexample: a container with exactly 10001 children yields
completeness flag `true` and all 10001 children present in the snapshot,
contrary to the claimed `complete = false` with the 10001st child absent. -/
theorem c3_counterexample :
    (buildDirectChilds (List.replicate 10001 (leafElem "x")) 0).2 = true ∧
    (buildDirectChilds (List.replicate 10001 (leafElem "x")) 0).1.length = 10001 := by
  have h := buildDirectChilds_spec (List.replicate 10001 (leafElem "x")) 0 (by omega)
  constructor
  · rw [h.2, List.length_replicate]
    rw [decide_eq_true_eq]
  · rw [h.1, List.length_map, List.length_take, List.length_replicate]
    omega

/-- C4: with sort key `"unsorted"` the ordering steps leave the items in
exact input order, for both values of the reverse flag: a rebuilt sorted
sequence equals the raw items, reversed afterwards only when requested. -/
theorem c4_unsorted_preserves_order (cmp : String → ItemData → ItemData → Bool)
    (st : BrowserData) (req : Request) (hs : req.sort = "unsorted")
    (hrebuild : st.fLastSortedItems.length ≠ st.fLastItems.length ∨
      st.fLastSortMethod ≠ req.sort ∨ st.fLastSortReverse ≠ req.reverse) :
    orderItems cmp req.sort st.fLastItems = st.fLastItems ∧
    (sortStep cmp st req).fLastSortedItems =
      (if req.reverse then st.fLastItems.reverse else st.fLastItems) := by
  have ho : orderItems cmp req.sort st.fLastItems = st.fLastItems := by
    rw [hs]
    simp [orderItems]
  refine ⟨ho, ?_⟩
  unfold sortStep
  rw [if_pos hrebuild]
  simp [ho]

/-- Witness for C4 at a concrete state and request. -/
theorem c4_unsorted_preserves_order_witness :
    reqUnsorted.sort = "unsorted" ∧
    (stStale.fLastSortedItems.length ≠ stStale.fLastItems.length ∨
      stStale.fLastSortMethod ≠ reqUnsorted.sort ∨
      stStale.fLastSortReverse ≠ reqUnsorted.reverse) ∧
    (orderItems cmpTrue reqUnsorted.sort stStale.fLastItems = stStale.fLastItems ∧
     (sortStep cmpTrue stStale reqUnsorted).fLastSortedItems =
       (if reqUnsorted.reverse then stStale.fLastItems.reverse else stStale.fLastItems)) :=
  ⟨rfl, Or.inr (Or.inl (by decide)),
   c4_unsorted_preserves_order cmpTrue stStale reqUnsorted rfl (Or.inr (Or.inl (by decide)))⟩

/-- C2: with nonnegative offset and limit, the page produced by the
filter/pagination loop has length `min(limit, max(0, total - offset))` for
a positive limit and `max(0, total - offset)` for limit 0, and the reported
total is independent of offset and limit. -/
theorem c2_pagination (m : String → Bool) (req : Request) (l : List ItemData)
    (h1 : 0 ≤ req.first) (h2 : 0 ≤ req.number) :
    (0 < req.number →
      ((filterPageLoop m req l 0).1.length : Int) =
        min req.number (max 0 ((filterPageLoop m req l 0).2 - req.first))) ∧
    (req.number = 0 →
      ((filterPageLoop m req l 0).1.length : Int) =
        max 0 ((filterPageLoop m req l 0).2 - req.first)) ∧
    (∀ f' n' : Int,
      (filterPageLoop m { req with first := f', number := n' } l 0).2 =
        (filterPageLoop m req l 0).2) := by
  have hn : (filterPageLoop m req l 0).1 =
      pageSelect req.first req.number (l.filter (keepB m req.hidden req.regex)) 0 := by
    rw [filterPageLoop_eq]
  have ht : (filterPageLoop m req l 0).2 =
      ((l.filter (keepB m req.hidden req.regex)).length : Int) := by
    rw [filterPageLoop_eq]
    simp
  refine ⟨?_, ?_, ?_⟩
  · intro hpos
    rw [hn, ht, pageSelect_length_pos req.first req.number hpos]
    omega
  · intro hzero
    rw [hn, ht, hzero, pageSelect_length_zero]
    omega
  · intro f' n'
    have ht2 : (filterPageLoop m { req with first := f', number := n' } l 0).2 =
        ((l.filter (keepB m req.hidden req.regex)).length : Int) := by
      rw [filterPageLoop_eq]
      simp
    rw [ht2, ht]

/-- Witness for C2 at a concrete matcher, request and item list. -/
theorem c2_pagination_witness :
    (0 : Int) ≤ reqPage.first ∧ (0 : Int) ≤ reqPage.number ∧
    (((filterPageLoop matchAll reqPage itemsMix 0).1.length : Int) =
      min reqPage.number (max 0 ((filterPageLoop matchAll reqPage itemsMix 0).2 - reqPage.first))) :=
  ⟨by decide, by decide,
   (c2_pagination matchAll reqPage itemsMix (by decide) (by decide)).1 (by decide)⟩

/-- Members of a pagination window come from the input sequence. -/
theorem pageSelect_subset (f n : Int) :
    ∀ (l : List ItemData) (id : Int) (x : ItemData), x ∈ pageSelect f n l id → x ∈ l := by
  intro l
  induction l with
  | nil => intro id x hx; simp [pageSelect] at hx
  | cons item rest ih =>
    intro id x hx
    simp only [pageSelect] at hx
    split at hx
    · rcases List.mem_cons.mp hx with h | h
      · exact h ▸ List.mem_cons_self _ _
      · exact List.mem_cons_of_mem _ (ih (id + 1) x h)
    · exact List.mem_cons_of_mem _ (ih (id + 1) x hx)

/-- When hidden items are not requested, a kept item is not hidden. -/
theorem keepB_hidden_false (m : String → Bool) (rx : String) (x : ItemData)
    (hk : keepB m false rx x = true) : x.hidden = false := by
  by_contra h
  have hx : x.hidden = true := by
    cases hxh : x.hidden
    · exact absurd hxh h
    · rfl
  rw [keepB, if_pos ⟨rfl, hx⟩] at hk
  exact Bool.false_ne_true hk

/-- C5 amended: a negative limit yields an empty page, but a negative
offset does not: with limit 0 the page is the entire visible sequence, and
with a positive limit it is the first `offset + limit` visible items
(empty when that bound is not positive). -/
theorem c5_negative_window (m : String → Bool) (req : Request) (l : List ItemData)
    (h : req.first < 0 ∨ req.number < 0) :
    (req.number < 0 → (filterPageLoop m req l 0).1 = []) ∧
    (req.first < 0 → req.number = 0 →
      (filterPageLoop m req l 0).1 = l.filter (keepB m req.hidden req.regex)) ∧
    (req.first < 0 → 0 < req.number →
      (filterPageLoop m req l 0).1 =
        (l.filter (keepB m req.hidden req.regex)).take (req.first + req.number).toNat) := by
  have hn : (filterPageLoop m req l 0).1 =
      pageSelect req.first req.number (l.filter (keepB m req.hidden req.regex)) 0 := by
    rw [filterPageLoop_eq]
  refine ⟨?_, ?_, ?_⟩
  · intro hneg
    rw [hn, pageSelect_of_neg _ _ hneg]
  · intro hf h0
    rw [hn, h0, pageSelect_all _ _ 0 (by omega)]
  · intro hf hpos
    rw [hn, pageSelect_take _ _ hpos _ 0 (by omega)]
    simp

/-- C5 counterexample: with offset −1 and limit 0 over a visible item list
the page holds every visible item rather than being empty. -/
theorem c5_counterexample :
    (filterPageLoop matchAll reqNegOff itemsMix 0).1 ≠ [] := by
  decide

/-- Witness for C5 at a concrete request with a negative limit. -/
theorem c5_negative_window_witness :
    (reqNegLim.first < 0 ∨ reqNegLim.number < 0) ∧
    (filterPageLoop matchAll reqNegLim itemsMix 0).1 = [] :=
  ⟨Or.inr (by decide),
   (c5_negative_window matchAll reqNegLim itemsMix (Or.inr (by decide))).1 (by decide)⟩

/-- C8: with hidden items not requested, every item of the output page is
non-hidden, the reported total counts exactly the items that pass the
hidden/regex filter applied to the non-hidden items (a hidden item never
passes), and the regex clause of the filter never rejects a folder item
(for a folder the filter behaves as if the regex were empty). -/
theorem c8_filter_composition (m : String → Bool) (req : Request) (l : List ItemData)
    (it itf : ItemData) (hh : req.hidden = false) (hit : it.hidden = true)
    (hitf : itf.folder = true) :
    AllVisible (filterPageLoop m req l 0).1 ∧
    ((filterPageLoop m req l 0).2 =
      (((l.filter fun x => !x.hidden).filter (keepB m req.hidden req.regex)).length : Int)) ∧
    keepB m req.hidden req.regex it = false ∧
    keepB m req.hidden req.regex itf = keepB m req.hidden "" itf := by
  have hfl : (l.filter fun x => !x.hidden).filter (keepB m req.hidden req.regex) =
      l.filter (keepB m req.hidden req.regex) := by
    rw [List.filter_filter]
    apply List.filter_congr
    intro x _
    cases hk : keepB m req.hidden req.regex x
    · simp
    · have hv : x.hidden = false := keepB_hidden_false m req.regex x (hh ▸ hk)
      simp [hv]
  refine ⟨?_, ?_, ?_, ?_⟩
  · intro x hx
    have hx1 : (filterPageLoop m req l 0).1 =
        pageSelect req.first req.number (l.filter (keepB m req.hidden req.regex)) 0 := by
      rw [filterPageLoop_eq]
    rw [hx1] at hx
    have hx2 := pageSelect_subset req.first req.number _ 0 x hx
    have hx3 := List.of_mem_filter hx2
    exact keepB_hidden_false m req.regex x (hh ▸ hx3)
  · have ht : (filterPageLoop m req l 0).2 =
        ((l.filter (keepB m req.hidden req.regex)).length : Int) := by
      rw [filterPageLoop_eq]
      simp
    rw [ht, hfl]
  · rw [keepB, if_pos ⟨hh, hit⟩]
  · have h2 : ¬(req.regex ≠ "" ∧ itf.folder = false ∧ m itf.name = false) := by
      rintro ⟨_, hf, _⟩
      rw [hitf] at hf
      exact absurd hf (by simp)
    have h3 : ¬(("" : String) ≠ "" ∧ itf.folder = false ∧ m itf.name = false) := by
      rintro ⟨he, _, _⟩
      exact he rfl
    rw [keepB, keepB]
    by_cases h1 : req.hidden = false ∧ itf.hidden = true
    · rw [if_pos h1, if_pos h1]
    · rw [if_neg h1, if_neg h1, if_neg h2, if_neg h3]

/-- Witness for C8 at a concrete matcher, request, list and items. -/
theorem c8_filter_composition_witness :
    reqHid.hidden = false ∧ (itemH "h1").hidden = true ∧ (itemF "d1").folder = true ∧
    (AllVisible (filterPageLoop matchAll reqHid itemsMix 0).1 ∧
     ((filterPageLoop matchAll reqHid itemsMix 0).2 =
       (((itemsMix.filter fun x => !x.hidden).filter
           (keepB matchAll reqHid.hidden reqHid.regex)).length : Int)) ∧
     keepB matchAll reqHid.hidden reqHid.regex (itemH "h1") = false ∧
     keepB matchAll reqHid.hidden reqHid.regex (itemF "d1") =
       keepB matchAll reqHid.hidden "" (itemF "d1")) :=
  ⟨rfl, rfl, rfl,
   c8_filter_composition matchAll reqHid itemsMix (itemH "h1") (itemF "d1") rfl rfl rfl⟩

/-- C6 amended: when the request path differs from the memoized path (or no
element is memoized) the processor first attempts resolution; a failed
resolution returns false with no state change other than the entries the
resolution added to the cache — in particular the stale memo of the
previous path survives.  The full memo reset happens only after a
successful resolution, before the new path and element are installed. -/
theorem c6_failed_resolution (compile : String → Option (String → Bool))
    (cmp : String → ItemData → ItemData → Bool) (st : BrowserData) (req : Request)
    (hmm : DecomposePath st.fWorkingPath req.path true ≠ st.fLastPath ∨
      st.fLastElement.isNone = true)
    (hfail : (GetSubElement st.fTopElement st.fCache
      (DecomposePath st.fWorkingPath req.path true)).1 = none) :
    ProcessBrowserRequest compile cmp st req =
      Outcome.fail { st with fCache :=
        (GetSubElement st.fTopElement st.fCache
          (DecomposePath st.fWorkingPath req.path true)).2 } := by
  simp only [ProcessBrowserRequest]
  rw [if_pos hmm, hfail]

/-- C6 counterexample: a request whose path differs from the memoized one
and whose resolution fails leaves the stale memo of the previous path fully
in place — no reset to the idle state happens. -/
theorem c6_counterexample :
    (ProcessBrowserRequest compileAll cmpTrue stStale reqMissing).isFail = true ∧
    (ProcessBrowserRequest compileAll cmpTrue stStale reqMissing).getState.fLastPath = ["old"] ∧
    (ProcessBrowserRequest compileAll cmpTrue stStale reqMissing).getState.fLastItems =
      [itemL "i1"] ∧
    (ProcessBrowserRequest compileAll cmpTrue stStale reqMissing).getState.fLastElement =
      stStale.fLastElement :=
  ⟨rfl, rfl, rfl, rfl⟩

/-- Witness for C6 at a concrete state and failing request. -/
theorem c6_failed_resolution_witness :
    (DecomposePath stStale.fWorkingPath reqMissing.path true ≠ stStale.fLastPath ∨
      stStale.fLastElement.isNone = true) ∧
    ProcessBrowserRequest compileAll cmpTrue stStale reqMissing =
      Outcome.fail { stStale with fCache :=
        (GetSubElement stStale.fTopElement stStale.fCache
          (DecomposePath stStale.fWorkingPath reqMissing.path true)).2 } :=
  ⟨Or.inl (by decide),
   c6_failed_resolution compileAll cmpTrue stStale reqMissing (Or.inl (by decide)) rfl⟩

/-- A regex compilation failure makes the post-resolution stages end in a
thrown outcome or an earlier listing failure, never a reply. -/
theorem processAfterResolve_isOk_false (compile : String → Option (String → Bool))
    (cmp : String → ItemData → ItemData → Bool) (st : BrowserData) (req : Request)
    (h : compile req.regex = none) :
    (processAfterResolve compile cmp st req).isOk = false := by
  unfold processAfterResolve
  cases hls : listStep st with
  | none => simp [Outcome.isOk]
  | some st₂ => simp [h, Outcome.isOk]

/-- C7 amended: a malformed regex fails the whole request: the regex error
is propagated (or the request already failed earlier) and no reply is ever
produced; state changes already performed by the earlier stages of the same
request (resolution-cache fills, memo rebuild for a changed path) persist. -/
theorem c7_regex_error_no_reply (compile : String → Option (String → Bool))
    (cmp : String → ItemData → ItemData → Bool) (st : BrowserData) (req : Request)
    (h : compile req.regex = none) :
    (ProcessBrowserRequest compile cmp st req).isOk = false := by
  simp only [ProcessBrowserRequest]
  split
  · split
    · rfl
    · exact processAfterResolve_isOk_false compile cmp _ req h
  · exact processAfterResolve_isOk_false compile cmp _ req h

/-- C7 counterexample: a malformed-regex request over a fresh path throws
only after the resolution and listing stages ran, leaving a grown
resolution cache and a rebuilt memo — the previously cached state is not
left untouched by the failing request. -/
theorem c7_counterexample :
    (ProcessBrowserRequest compileNone cmpTrue (stIdle topElemA) reqX).isThrown = true ∧
    (ProcessBrowserRequest compileNone cmpTrue (stIdle topElemA) reqX).getState.fCache.map
      Prod.fst = [["x"]] ∧
    (stIdle topElemA).fCache.map Prod.fst = [] ∧
    (ProcessBrowserRequest compileNone cmpTrue (stIdle topElemA) reqX).getState.fLastPath =
      ["x"] ∧
    (stIdle topElemA).fLastPath = [] :=
  ⟨rfl, rfl, rfl, rfl, rfl⟩

/-- Witness for C7 at a concrete always-failing regex compiler. -/
theorem c7_regex_error_no_reply_witness :
    compileNone reqX.regex = none ∧
    (ProcessBrowserRequest compileNone cmpTrue (stIdle topElemA) reqX).isOk = false :=
  ⟨rfl, c7_regex_error_no_reply compileNone cmpTrue (stIdle topElemA) reqX rfl⟩
